import Mathlib

set_option synthInstance.maxSize 512

/-!
Verification development for the spatial-analysis core of the
15MinGreenCity-Besiktas-IBB repository.

The repository's accessibility code
(`src/analysis/src/spatial_analysis/network_analysis.py` and
`src/analysis/src/spatial_analysis/accessibility_analysis.py`) builds a
pedestrian street graph and answers bounded-reachability ("service area")
queries by calling `networkx.ego_graph(G, node, radius, distance='length')`
and `osmnx.distance.nearest_nodes`.  This file gives a shallow embedding of
those operations and of the two `calculate_accessibility` entry points, and
proves or refutes the claims of the specification against it.

Modelling conventions:
* A `Graph` is the walking network: a list of nodes carrying projected
  planar coordinates, and a list of undirected weighted edges (osmnx `walk`
  networks insert every edge in both directions, so each stored edge is
  traversable both ways; `arcs` materialises the two directions).
* `dijkstraDist` embeds `networkx.single_source_dijkstra_path_length`
  (nonnegative weights) by its defining property: the minimum total length
  over walks from the source, where it suffices to range over walks whose
  vertices lie in the graph and whose length is bounded by the number of
  vertices (a shortest walk never repeats a vertex).
* `egoSub` embeds `networkx.ego_graph(G, n, radius, distance='length')`:
  the set of nodes whose Dijkstra distance from `n` is at most `radius`
  (the source itself is always seeded, matching the library even for a
  negative radius), together with the subgraph *induced* on that node set,
  i.e. exactly the edges with both endpoints in the set.
* `nearest_nodes` embeds `osmnx.distance.nearest_nodes` on a projected
  graph: the node of minimum planar Euclidean distance to the query point,
  a tie going to the node that comes first in the graph's node ordering
  (the array order handed to the k-d tree), not to the smallest id.
  Coordinates are carried as integers (fixed-point micro-units of the
  source's planar coordinates), which leaves every distance comparison
  exact.
* Fallible library calls are embedded in `Except`: `nearest_nodes` fails
  on an empty graph, `ego_graph` on a missing source node; these are the
  only exceptions the embedded call sites can raise.
-/

deriving instance DecidableEq for Except

/-- A walking network as built by `osmnx.graph_from_place`: nodes with
planar coordinates and undirected edges weighted by length in meters. -/
structure Graph where
  nodes : List (Nat × ℤ × ℤ)
  edges : List (Nat × Nat × ℕ)
  deriving DecidableEq

/-- A service-area result: the reached nodes and the induced edges, as
returned by `networkx.ego_graph`. -/
abbrev Subgraph := List Nat × List (Nat × Nat × ℕ)

/-- The ids of the graph's nodes. -/
def nodeIds (g : Graph) : List Nat := g.nodes.map (fun p => p.1)

/-- Every node id mentioned by the graph: declared nodes and edge
endpoints. -/
def nodeUniverse (g : Graph) : List Nat :=
  (nodeIds g ++ g.edges.flatMap (fun e => [e.1, e.2.1])).dedup

/-- Both traversal directions of the undirected edge list (osmnx walk
networks are bidirectional). -/
def arcs (g : Graph) : List (Nat × Nat × ℕ) :=
  g.edges ++ g.edges.map (fun e => (e.2.1, e.1, e.2.2))

/-- The lengths of all arcs from `u` to `v` (parallel edges permitted). -/
def arcLengths (g : Graph) (u v : Nat) : List ℕ :=
  (arcs g).filterMap (fun a => if a.1 = u ∧ a.2.1 = v then some a.2.2 else none)

/-- The cheapest direct hop from `u` to `v`, if any. -/
def minArc (g : Graph) (u v : Nat) : Option ℕ := (arcLengths g u v).min?

/-- Addition on optional costs: defined only when both sides are. -/
def costAdd : Option ℕ → Option ℕ → Option ℕ
  | some a, some b => some (a + b)
  | _, _ => none

/-- Total length of a walk given by its vertex list, taking the cheapest
arc between consecutive vertices; `none` if some hop has no arc. -/
def walkCost (g : Graph) : List Nat → Option ℕ
  | [] => none
  | [_] => some 0
  | u :: v :: rest => costAdd (minArc g u v) (walkCost g (v :: rest))

/-- All vertex sequences over `alpha` of length at most `k`. -/
def seqsUpTo (alpha : List Nat) : Nat → List (List Nat)
  | 0 => [[]]
  | k + 1 => [] :: alpha.flatMap (fun a => (seqsUpTo alpha k).map (fun s => a :: s))

/-- Costs of all bounded walks from `n` to `v` in the graph. -/
def walkCands (g : Graph) (n v : Nat) : List ℕ :=
  (seqsUpTo (nodeUniverse g) (nodeUniverse g).length).filterMap
    (fun m => if (n :: m).getLast? = some v then walkCost g (n :: m) else none)

/-- Shallow embedding of `networkx.single_source_dijkstra_path_length`
with weight `length`: the least total length of a walk from `n` to `v`
(nonnegative weights, so bounded walks suffice), `none` when `v` is
unreachable from `n`. -/
def dijkstraDist (g : Graph) (n v : Nat) : Option ℕ := (walkCands g n v).min?

/-- Whether `v` is within the distance budget `radius` of `n`. -/
def withinBudget (g : Graph) (n v : Nat) (radius : ℚ) : Bool :=
  match dijkstraDist g n v with
  | some d => decide ((d : ℚ) ≤ radius)
  | none => false

/-- Candidate nodes of an ego query: the source (always seeded by the
Dijkstra loop) followed by every node the graph mentions. -/
def egoPool (g : Graph) (n : Nat) : List Nat := (n :: nodeUniverse g).dedup

/-- Nodes of `networkx.ego_graph g n radius`: the source plus every node
whose shortest distance from the source is at most the radius. -/
def egoNodes (g : Graph) (n : Nat) (radius : ℚ) : List Nat :=
  (egoPool g n).filter (fun v => v == n || withinBudget g n v radius)

/-- Edges of `networkx.ego_graph g n radius`: the subgraph induced on the
reached nodes, i.e. exactly the edges with both endpoints reached. -/
def egoEdges (g : Graph) (n : Nat) (radius : ℚ) : List (Nat × Nat × ℕ) :=
  g.edges.filter (fun e =>
    (egoNodes g n radius).contains e.1 && (egoNodes g n radius).contains e.2.1)

/-- Shallow embedding of `networkx.ego_graph (radius, distance='length')`. -/
def egoSub (g : Graph) (n : Nat) (radius : ℚ) : Subgraph :=
  (egoNodes g n radius, egoEdges g n radius)

/-- The fallible wrapper: `networkx.ego_graph` raises `NodeNotFound` when
the source node is not in the graph, and returns normally otherwise
(any radius, negative ones included). -/
def ego_graph (g : Graph) (n : Nat) (radius : ℚ) : Except String Subgraph :=
  if n ∈ nodeIds g then .ok (egoSub g n radius) else .error "NodeNotFound"

/-- Squared planar Euclidean distance from a stored node to a query point. -/
def sqDist (p : Nat × ℤ × ℤ) (x y : ℤ) : ℤ :=
  (p.2.1 - x) * (p.2.1 - x) + (p.2.2 - y) * (p.2.2 - y)

/-- Shallow embedding of `osmnx.distance.nearest_nodes` on a projected
graph: a linear argmin of planar Euclidean distance over the node array
(the k-d tree query), the first node in array order winning ties; raises
when the graph has no nodes. -/
def nearest_nodes (g : Graph) (x y : ℤ) : Except String Nat :=
  match g.nodes with
  | [] => .error "EmptyGraph"
  | p :: ps =>
    .ok (ps.foldl (fun best q => if sqDist q x y < sqDist best x y then q else best) p).1

/-- Python-list building of `pois_nodes`: a `for` loop that appends the
result of each fallible call, an exception aborting the whole loop. -/
def mapE {α β : Type} (f : α → Except String β) : List α → Except String (List β)
  | [] => .ok []
  | a :: as => do
    let b ← f a
    let bs ← mapE f as
    .ok (b :: bs)

/-- Python `dict` assignment `m[k] = v`: overwrite the value in place when
the key exists, append the binding otherwise. -/
def dictInsert {V : Type} (m : List (Nat × V)) (k : Nat) (v : V) : List (Nat × V) :=
  if m.any (fun kv => kv.1 == k) then
    m.map (fun kv => if kv.1 == k then (k, v) else kv)
  else m ++ [(k, v)]

namespace NetworkAnalysis

/-- The hard-coded service-area radius of
`network_analysis.calculate_accessibility` (`radius=1200`). -/
def networkRadius : ℚ := 1200

/-- One iteration of the service-area loop: the shared graph is threaded
through unchanged (ego queries only read it) while the dictionary gains
the entry `service_areas[node] = ego_graph(G, node, radius=1200)`. -/
def serviceAreaStep (s : Graph × List (Nat × Subgraph)) (node : Nat) :
    Graph × List (Nat × Subgraph) :=
  (s.1, dictInsert s.2 node (egoSub s.1 node networkRadius))

/-- Shallow embedding of `network_analysis.calculate_accessibility(G,
points_of_interest)`: map every POI `(lat, lon)` to its nearest node (the
source passes `poi[1], poi[0]`, hence the swap), then fill the
`service_areas` dictionary keyed by node.  The graph is threaded through
as explicit state to record that no step writes it. -/
def calculate_accessibility (g : Graph) (points_of_interest : List (ℤ × ℤ)) :
    Except String (Graph × List (Nat × Subgraph)) := do
  let pois_nodes ← mapE (fun poi => nearest_nodes g poi.2 poi.1) points_of_interest
  .ok (pois_nodes.foldl serviceAreaStep (g, []))

end NetworkAnalysis

namespace AccessibilityAnalysis

/-- `walking_speed = 5  # km/h` from `accessibility_analysis.py`. -/
def walking_speed : ℚ := 5

/-- `max_distance = walking_speed * 0.25  # 15 minutes in hours`. -/
def max_distance : ℚ := walking_speed * 0.25

/-- The radius handed to the ego query: `radius=max_distance*1000`. -/
def access_radius : ℚ := max_distance * 1000

/-- `center_point = Point(29.007149, 41.041224)` (x = lon, y = lat), in
fixed-point micro-units. -/
def center_point : ℤ × ℤ := (29007149, 41041224)

/-- The dictionary returned by `accessibility_analysis.calculate_accessibility`:
`area_covered_km2` is hard-coded `None`, the other fields are the node and
edge counts of the ego subgraph. -/
structure AccessResult where
  area_covered_km2 : Option ℚ
  nodes_in_range : Nat
  edges_in_range : Nat
  deriving DecidableEq

/-- Shallow embedding of `accessibility_analysis.calculate_accessibility`
applied to the externally built projected graph: nearest node to the fixed
center point, then an ego query with the fixed radius
`max_distance * 1000`. -/
def calculate_accessibility (g : Graph) : Except String AccessResult := do
  let center_node ← nearest_nodes g center_point.1 center_point.2
  let subgraph := egoSub g center_node access_radius
  .ok ⟨none, subgraph.1.length, subgraph.2.length⟩

end AccessibilityAnalysis

/-- The linear chain A-B-C-D of the specification's worked example:
nodes 0,1,2,3 joined by edges of length 100. -/
def chainG : Graph :=
  ⟨[(0, 0, 0), (1, 100, 0), (2, 200, 0), (3, 300, 0)],
   [(0, 1, 100), (1, 2, 100), (2, 3, 100)]⟩

/-- A graph with a self-loop at node 0 and a zero-length edge 0-1. -/
def loopZeroG : Graph := ⟨[(0, 0, 0), (1, 1, 0)], [(0, 0, 3), (0, 1, 0)]⟩

/-- Two nodes at the same coordinates, the higher id listed first. -/
def tieG : Graph := ⟨[(7, 0, 0), (3, 0, 0)], []⟩

/-- The empty graph. -/
def emptyG : Graph := ⟨[], []⟩

/-- A one-node graph with no edges. -/
def oneG : Graph := ⟨[(0, 0, 0)], []⟩

/-- A graph in which node 5 is isolated while 0-1 are joined. -/
def isoG : Graph := ⟨[(5, 0, 0), (0, 1, 0), (1, 2, 0)], [(0, 1, 7)]⟩

theorem costAdd_eq_some {a b : Option ℕ} {c : ℕ} (h : costAdd a b = some c) :
    ∃ x y, a = some x ∧ b = some y ∧ c = x + y := by
  cases a with
  | none => simp [costAdd] at h
  | some x =>
    cases b with
    | none => simp [costAdd] at h
    | some y =>
      simp [costAdd] at h
      exact ⟨x, y, rfl, rfl, h.symm⟩

theorem costAdd_comm (a b : Option ℕ) : costAdd a b = costAdd b a := by
  cases a <;> cases b <;> simp [costAdd, Nat.add_comm]

theorem costAdd_assoc (a b c : Option ℕ) :
    costAdd (costAdd a b) c = costAdd a (costAdd b c) := by
  cases a <;> cases b <;> cases c <;> simp [costAdd, Nat.add_assoc]

theorem costAdd_some_zero (a : Option ℕ) : costAdd a (some 0) = a := by
  cases a <;> simp [costAdd]

theorem costAdd_zero_some (a : Option ℕ) : costAdd (some 0) a = a := by
  cases a <;> simp [costAdd]

theorem natMin?_mem {l : List ℕ} {a : ℕ} (h : l.min? = some a) : a ∈ l :=
  (List.min?_eq_some_iff'.1 h).1

theorem natMin?_le {l : List ℕ} {a b : ℕ} (h : l.min? = some a) (hb : b ∈ l) : a ≤ b :=
  (List.min?_eq_some_iff'.1 h).2 b hb

theorem natMin?_exists {l : List ℕ} {b : ℕ} (hb : b ∈ l) :
    ∃ a, l.min? = some a ∧ a ≤ b := by
  cases h : l.min? with
  | none =>
    rw [List.min?_eq_none_iff] at h
    subst h
    cases hb
  | some a => exact ⟨a, rfl, natMin?_le h hb⟩

theorem natMin?_congr {l₁ l₂ : List ℕ} (h : ∀ x, x ∈ l₁ ↔ x ∈ l₂) :
    l₁.min? = l₂.min? := by
  cases h₁ : l₁.min? with
  | none =>
    rw [List.min?_eq_none_iff] at h₁
    subst h₁
    symm
    rw [List.min?_eq_none_iff, List.eq_nil_iff_forall_not_mem]
    intro x hx
    exact (List.not_mem_nil x) ((h x).2 hx)
  | some a =>
    symm
    rw [List.min?_eq_some_iff']
    exact ⟨(h a).1 (natMin?_mem h₁), fun b hb => natMin?_le h₁ ((h b).2 hb)⟩

theorem mem_seqsUpTo {alpha : List Nat} : ∀ {k : Nat} {m : List Nat},
    m ∈ seqsUpTo alpha k ↔ m.length ≤ k ∧ ∀ x ∈ m, x ∈ alpha := by
  intro k
  induction k with
  | zero =>
    intro m
    constructor
    · intro h
      simp [seqsUpTo] at h
      subst h
      simp
    · intro ⟨h1, _⟩
      rw [Nat.le_zero, List.length_eq_zero] at h1
      subst h1
      simp [seqsUpTo]
  | succ k ih =>
    intro m
    cases m with
    | nil => simp [seqsUpTo]
    | cons b t =>
      simp only [seqsUpTo, List.mem_cons, List.mem_flatMap, List.mem_map]
      constructor
      · rintro (h | ⟨a, ha, s, hs, heq⟩)
        · exact absurd h (by simp)
        · obtain ⟨rfl, rfl⟩ : a = b ∧ s = t := by
            injection heq with h1 h2
            exact ⟨h1, h2⟩
          obtain ⟨hlen, hmem⟩ := ih.1 hs
          refine ⟨by simpa using Nat.succ_le_succ hlen, ?_⟩
          intro x hx
          rcases hx with rfl | hx
          · exact ha
          · exact hmem x hx
      · intro ⟨hlen, hmem⟩
        refine Or.inr ⟨b, hmem b (Or.inl rfl), t, ?_, rfl⟩
        exact ih.2 ⟨Nat.le_of_succ_le_succ (by simpa using hlen), fun x hx => hmem x (Or.inr hx)⟩

theorem mem_arcs {g : Graph} {u v : Nat} {l : ℕ} :
    (u, v, l) ∈ arcs g ↔ (u, v, l) ∈ g.edges ∨ (v, u, l) ∈ g.edges := by
  simp only [arcs, List.mem_append, List.mem_map]
  constructor
  · rintro (h | ⟨e, he, heq⟩)
    · exact Or.inl h
    · refine Or.inr ?_
      obtain ⟨h1, h2, h3⟩ : e.2.1 = u ∧ e.1 = v ∧ e.2.2 = l := by
        injection heq with a b
        injection b with b c
        exact ⟨a, b, c⟩
      have : e = (v, u, l) := by
        obtain ⟨e1, e2, e3⟩ := e
        simp_all
      rwa [this] at he
  · rintro (h | h)
    · exact Or.inl h
    · exact Or.inr ⟨(v, u, l), h, rfl⟩

theorem arcs_symm {g : Graph} {u v : Nat} {l : ℕ} (h : (u, v, l) ∈ arcs g) :
    (v, u, l) ∈ arcs g := by
  rw [mem_arcs] at h ⊢
  tauto

theorem arc_mem_universe {g : Graph} {u v : Nat} {l : ℕ} (h : (u, v, l) ∈ arcs g) :
    u ∈ nodeUniverse g ∧ v ∈ nodeUniverse g := by
  rw [mem_arcs] at h
  simp only [nodeUniverse, List.mem_dedup, List.mem_append, List.mem_flatMap]
  rcases h with h | h
  · exact ⟨Or.inr ⟨(u, v, l), h, by simp⟩, Or.inr ⟨(u, v, l), h, by simp⟩⟩
  · exact ⟨Or.inr ⟨(v, u, l), h, by simp⟩, Or.inr ⟨(v, u, l), h, by simp⟩⟩

theorem arc_pos {g : Graph} (hpos : ∀ e ∈ g.edges, 0 < e.2.2) {u v : Nat} {l : ℕ}
    (h : (u, v, l) ∈ arcs g) : 0 < l := by
  rw [mem_arcs] at h
  rcases h with h | h
  · exact hpos (u, v, l) h
  · exact hpos (v, u, l) h

theorem mem_arcLengths {g : Graph} {u v : Nat} {x : ℕ} :
    x ∈ arcLengths g u v ↔ (u, v, x) ∈ arcs g := by
  simp only [arcLengths, List.mem_filterMap]
  constructor
  · rintro ⟨a, ha, hx⟩
    split at hx
    · next hcond =>
      obtain ⟨h1, h2⟩ := hcond
      have hx' : a.2.2 = x := by injection hx
      have : a = (u, v, x) := by
        obtain ⟨a1, a2, a3⟩ := a
        simp_all
      rwa [this] at ha
    · exact absurd hx (by simp)
  · intro h
    exact ⟨(u, v, x), h, by simp⟩

theorem minArc_some {g : Graph} {u v : Nat} {a : ℕ} (h : minArc g u v = some a) :
    (u, v, a) ∈ arcs g ∧ ∀ b, (u, v, b) ∈ arcs g → a ≤ b := by
  refine ⟨mem_arcLengths.1 (natMin?_mem h), fun b hb => natMin?_le h (mem_arcLengths.2 hb)⟩

theorem minArc_exists {g : Graph} {u v : Nat} {b : ℕ} (h : (u, v, b) ∈ arcs g) :
    ∃ a, minArc g u v = some a ∧ a ≤ b :=
  natMin?_exists (mem_arcLengths.2 h)

theorem minArc_symm (g : Graph) (u v : Nat) : minArc g u v = minArc g v u := by
  refine natMin?_congr fun x => ?_
  rw [mem_arcLengths, mem_arcLengths, mem_arcs, mem_arcs]
  tauto

theorem walkCost_single (g : Graph) (u : Nat) : walkCost g [u] = some 0 := rfl

theorem walkCost_cons_cons (g : Graph) (u v : Nat) (rest : List Nat) :
    walkCost g (u :: v :: rest) = costAdd (minArc g u v) (walkCost g (v :: rest)) := rfl

theorem walkCost_snoc (g : Graph) :
    ∀ (l : List Nat) (a b : Nat),
      walkCost g (l ++ [a, b]) = costAdd (walkCost g (l ++ [a])) (minArc g a b) := by
  intro l
  induction l with
  | nil =>
    intro a b
    simp only [List.nil_append, walkCost_cons_cons, walkCost_single, costAdd_some_zero,
      costAdd_zero_some]
  | cons x t ih =>
    intro a b
    cases t with
    | nil =>
      simp only [List.cons_append, List.nil_append, walkCost_cons_cons, walkCost_single,
        costAdd_some_zero, costAdd_zero_some]
    | cons y t' =>
      have h1 : (x :: y :: t') ++ [a, b] = x :: ((y :: t') ++ [a, b]) := by simp
      have h2 : (x :: y :: t') ++ [a] = x :: ((y :: t') ++ [a]) := by simp
      rw [h1, h2]
      have h3 : (y :: t') ++ [a, b] = y :: (t' ++ [a, b]) := by simp
      have h4 : (y :: t') ++ [a] = y :: (t' ++ [a]) := by simp
      rw [show x :: ((y :: t') ++ [a, b]) = x :: y :: (t' ++ [a, b]) by simp,
        show x :: ((y :: t') ++ [a]) = x :: y :: (t' ++ [a]) by simp]
      rw [walkCost_cons_cons, walkCost_cons_cons]
      rw [show y :: (t' ++ [a, b]) = (y :: t') ++ [a, b] by simp,
        show y :: (t' ++ [a]) = (y :: t') ++ [a] by simp]
      rw [ih a b, costAdd_assoc]

theorem walkCost_reverse (g : Graph) : ∀ (l : List Nat), walkCost g l.reverse = walkCost g l := by
  intro l
  induction l with
  | nil => rfl
  | cons x t ih =>
    cases t with
    | nil => rfl
    | cons y t' =>
      have h1 : (x :: y :: t').reverse = (y :: t').reverse ++ [x] := by simp
      have h2 : (y :: t').reverse = t'.reverse ++ [y] := by simp
      rw [h1, h2, List.append_assoc]
      have h3 : ([y] ++ [x] : List Nat) = [y, x] := rfl
      rw [h3, walkCost_snoc]
      rw [show t'.reverse ++ [y] = (y :: t').reverse by simp]
      rw [ih, walkCost_cons_cons, minArc_symm g y x, costAdd_comm]

theorem walkCost_pos {g : Graph} (hpos : ∀ e ∈ g.edges, 0 < e.2.2) {u v : Nat}
    {rest : List Nat} {c : ℕ} (h : walkCost g (u :: v :: rest) = some c) : 0 < c := by
  rw [walkCost_cons_cons] at h
  obtain ⟨x, y, hx, _, rfl⟩ := costAdd_eq_some h
  have harc := (minArc_some hx).1
  have := arc_pos hpos harc
  omega

theorem walkCost_first_arc {g : Graph} {u v : Nat} {rest : List Nat} {c : ℕ}
    (h : walkCost g (u :: v :: rest) = some c) : ∃ a, (u, v, a) ∈ arcs g := by
  rw [walkCost_cons_cons] at h
  obtain ⟨x, _, hx, _, _⟩ := costAdd_eq_some h
  exact ⟨x, (minArc_some hx).1⟩

theorem mem_walkCands {g : Graph} {n v : Nat} {d : ℕ} :
    d ∈ walkCands g n v ↔
      ∃ m, m ∈ seqsUpTo (nodeUniverse g) (nodeUniverse g).length ∧
        (n :: m).getLast? = some v ∧ walkCost g (n :: m) = some d := by
  simp only [walkCands, List.mem_filterMap]
  constructor
  · rintro ⟨m, hm, hd⟩
    split at hd
    · next hlast => exact ⟨m, hm, hlast, hd⟩
    · exact absurd hd (by simp)
  · rintro ⟨m, hm, hlast, hcost⟩
    refine ⟨m, hm, ?_⟩
    rw [if_pos hlast]
    exact hcost

theorem dijkstraDist_some {g : Graph} {n v : Nat} {d : ℕ}
    (h : dijkstraDist g n v = some d) :
    ∃ m, m ∈ seqsUpTo (nodeUniverse g) (nodeUniverse g).length ∧
      (n :: m).getLast? = some v ∧ walkCost g (n :: m) = some d :=
  mem_walkCands.1 (natMin?_mem h)

theorem dijkstraDist_le {g : Graph} {n v : Nat} {d : ℕ} (h : d ∈ walkCands g n v) :
    ∃ e, dijkstraDist g n v = some e ∧ e ≤ d :=
  natMin?_exists h

theorem withinBudget_iff {g : Graph} {n v : Nat} {r : ℚ} :
    withinBudget g n v r = true ↔ ∃ d, dijkstraDist g n v = some d ∧ (d : ℚ) ≤ r := by
  unfold withinBudget
  cases h : dijkstraDist g n v with
  | none => simp
  | some d => simp [decide_eq_true_iff]

theorem mem_egoPool_self (g : Graph) (n : Nat) : n ∈ egoPool g n := by
  simp [egoPool, List.mem_dedup]

theorem mem_egoPool_of_universe {g : Graph} {v : Nat} (n : Nat) (h : v ∈ nodeUniverse g) :
    v ∈ egoPool g n := by
  simp [egoPool, List.mem_dedup]
  exact Or.inr h

theorem egoPool_nodup (g : Graph) (n : Nat) : (egoPool g n).Nodup :=
  List.nodup_dedup _

theorem mem_egoNodes {g : Graph} {n v : Nat} {r : ℚ} :
    v ∈ egoNodes g n r ↔ v ∈ egoPool g n ∧ (v = n ∨ withinBudget g n v r = true) := by
  simp [egoNodes, List.mem_filter]

theorem mem_egoEdges {g : Graph} {n : Nat} {r : ℚ} {e : Nat × Nat × ℕ} :
    e ∈ egoEdges g n r ↔
      e ∈ g.edges ∧ e.1 ∈ egoNodes g n r ∧ e.2.1 ∈ egoNodes g n r := by
  simp [egoEdges, List.mem_filter]

theorem filter_eq_singleton {l : List Nat} {p : Nat → Bool} {a : Nat}
    (hn : l.Nodup) (ha : a ∈ l) (hp : ∀ x ∈ l, (p x = true ↔ x = a)) :
    l.filter p = [a] := by
  induction l with
  | nil => cases ha
  | cons x t ih =>
    obtain ⟨hxt, hnt⟩ := List.nodup_cons.1 hn
    rcases List.mem_cons.1 ha with heq | hat
    · subst heq
      rw [List.filter_cons_of_pos ((hp a (List.mem_cons_self a t)).2 rfl)]
      have ht : t.filter p = [] := by
        rw [List.filter_eq_nil_iff]
        intro y hy hpy
        have := (hp y (List.mem_cons_of_mem a hy)).1 hpy
        subst this
        exact hxt hy
      rw [ht]
    · have hx : ¬(p x = true) := by
        intro hc
        have := (hp x (List.mem_cons_self x t)).1 hc
        subst this
        exact hxt hat
      rw [List.filter_cons_of_neg hx]
      exact ih hnt hat fun y hy => hp y (List.mem_cons_of_mem x hy)

theorem egoNodes_eq_singleton {g : Graph} {n : Nat} {r : ℚ}
    (h : ∀ v, withinBudget g n v r = true → v = n) : egoNodes g n r = [n] := by
  unfold egoNodes
  apply filter_eq_singleton (egoPool_nodup g n) (mem_egoPool_self g n)
  intro x _
  constructor
  · intro hpx
    simp only [Bool.or_eq_true, beq_iff_eq] at hpx
    rcases hpx with h1 | h2
    · exact h1
    · exact h x h2
  · intro he
    subst he
    simp

theorem egoEdges_eq_nil {g : Graph} {n : Nat} {r : ℚ}
    (hnodes : egoNodes g n r = [n])
    (hno : ∀ e ∈ g.edges, ¬(e.1 = n ∧ e.2.1 = n)) : egoEdges g n r = [] := by
  unfold egoEdges
  rw [hnodes, List.filter_eq_nil_iff]
  intro e he hc
  simp only [Bool.and_eq_true, List.contains_cons, List.contains_nil, Bool.or_false,
    beq_iff_eq] at hc
  exact hno e he hc

/-- C1: the specification claims the reachability result classifies an edge
with exactly one included endpoint as a boundary edge contributing partial
covered length, and on the chain A-B-C-D with budget 150 reports boundary
edge B-C with partial length 50.  The code's `nx.ego_graph` result is an
induced subgraph: on the chain it returns nodes 0,1 and the full edge 0-1
only, and edge 1-2 (B-C) appears nowhere in the result, with no partial
length of any kind. -/
theorem C1_no_boundary_cx :
    egoSub chainG 0 150 = ([0, 1], [(0, 1, 100)]) ∧
      ¬((1, 2, 100) ∈ (egoSub chainG 0 150).2) := by decide

/-- C1 (amended): the reachability result is the subgraph induced on the
nodes within budget: an edge belongs to the result exactly when it is a
graph edge with both endpoints reached, so an edge with exactly one
reached endpoint is omitted entirely and no partial length is reported;
on the chain, `Reachability(A, 150)` yields nodes 0,1 and edge 0-1 only. -/
theorem C1_induced_subgraph :
    (∀ (g : Graph) (n : Nat) (r : ℚ) (e : Nat × Nat × ℕ),
        e ∈ (egoSub g n r).2 ↔
          e ∈ g.edges ∧ e.1 ∈ (egoSub g n r).1 ∧ e.2.1 ∈ (egoSub g n r).1) ∧
      egoSub chainG 0 150 = ([0, 1], [(0, 1, 100)]) := by
  constructor
  · intro g n r e
    exact mem_egoEdges
  · decide

/-- C4: for budgets b1 < b2 (b1 nonnegative) the nodes reached under b1
are a subset of the nodes reached under b2. -/
theorem C4_monotone (g : Graph) (n : Nat) (b₁ b₂ : ℚ) (_h0 : 0 ≤ b₁) (h : b₁ < b₂) :
    egoNodes g n b₁ ⊆ egoNodes g n b₂ := by
  intro v hv
  rw [mem_egoNodes] at hv ⊢
  obtain ⟨hpool, hcond⟩ := hv
  refine ⟨hpool, ?_⟩
  rcases hcond with rfl | hw
  · exact Or.inl rfl
  · refine Or.inr ?_
    rw [withinBudget_iff] at hw ⊢
    obtain ⟨d, hd, hle⟩ := hw
    exact ⟨d, hd, le_trans hle (le_of_lt h)⟩

theorem C4_monotone_witness : egoNodes chainG 0 150 ⊆ egoNodes chainG 0 300 :=
  C4_monotone chainG 0 150 300 (by norm_num) (by norm_num)

/-- C5: the built graph is undirected (each edge traversable both ways),
so if m is reached from n within budget b then n is reached from m within
the same budget. -/
theorem C5_symmetric (g : Graph) (n m : Nat) (b : ℚ) (h : m ∈ egoNodes g n b) :
    n ∈ egoNodes g m b := by
  rw [mem_egoNodes] at h
  obtain ⟨hpool, hcond⟩ := h
  rcases hcond with rfl | hw
  · exact mem_egoNodes.2 ⟨mem_egoPool_self g m, Or.inl rfl⟩
  · rw [withinBudget_iff] at hw
    obtain ⟨d, hd, hdb⟩ := hw
    obtain ⟨w, hwseq, hwlast, hwcost⟩ := dijkstraDist_some hd
    cases w with
    | nil =>
      have hnm : n = m := by simpa using hwlast
      subst hnm
      exact mem_egoNodes.2 ⟨mem_egoPool_self g n, Or.inl rfl⟩
    | cons y rest =>
      obtain ⟨a, harc⟩ := walkCost_first_arc hwcost
      have hnU : n ∈ nodeUniverse g := (arc_mem_universe harc).1
      have hhead : (n :: y :: rest).reverse.head? = some m := by
        rw [List.head?_reverse]
        exact hwlast
      obtain ⟨t', ht'⟩ : ∃ t', (n :: y :: rest).reverse = m :: t' := by
        cases hwe : (n :: y :: rest).reverse with
        | nil => rw [hwe] at hhead; simp at hhead
        | cons z zs =>
          rw [hwe] at hhead
          simp only [List.head?_cons, Option.some_inj] at hhead
          exact ⟨zs, by rw [hhead]⟩
      have hcost' : walkCost g (m :: t') = some d := by
        rw [← ht', walkCost_reverse]
        exact hwcost
      have hlast' : (m :: t').getLast? = some n := by
        rw [← ht', List.getLast?_reverse]
        simp
      obtain ⟨hlen, hmem⟩ := mem_seqsUpTo.1 hwseq
      have hlent' : t'.length = rest.length + 1 := by
        have hl : (n :: y :: rest).reverse.length = rest.length + 2 := by simp
        rw [ht'] at hl
        simp at hl
        omega
      have ht'seq : t' ∈ seqsUpTo (nodeUniverse g) (nodeUniverse g).length := by
        rw [mem_seqsUpTo]
        constructor
        · rw [hlent']
          simpa using hlen
        · intro x hx
          have hxw : x ∈ (n :: y :: rest).reverse := by
            rw [ht']
            exact List.mem_cons_of_mem _ hx
          rw [List.mem_reverse] at hxw
          rcases List.mem_cons.1 hxw with rfl | hxyr
          · exact hnU
          · exact hmem x hxyr
      have hcand : d ∈ walkCands g m n := by
        rw [mem_walkCands]
        exact ⟨t', ht'seq, hlast', hcost'⟩
      obtain ⟨d', hd', hdd⟩ := dijkstraDist_le hcand
      refine mem_egoNodes.2 ⟨mem_egoPool_of_universe m hnU, Or.inr ?_⟩
      rw [withinBudget_iff]
      refine ⟨d', hd', le_trans ?_ hdb⟩
      exact_mod_cast hdd

theorem C5_symmetric_witness : 0 ∈ egoNodes chainG 1 150 :=
  C5_symmetric chainG 0 1 150 (by decide)

/-- C3: the specification claims budget 0 always returns exactly the
source with no edges.  On the embedded `nx.ego_graph`, a node joined to
the source by a zero-length edge is also within budget 0, and the induced
subgraph keeps self-loops at included nodes: on `loopZeroG` the query at
budget 0 returns two nodes and two edges. -/
theorem C3_budget_zero_cx :
    egoSub loopZeroG 0 0 = ([0, 1], [(0, 0, 3), (0, 1, 0)]) ∧
      1 ∈ (egoSub loopZeroG 0 0).1 ∧ (egoSub loopZeroG 0 0).2 ≠ [] := by decide

/-- C3 (amended): budget 0 returns exactly the source and no edges for
every graph whose edges have positive length and carry no self-loop at
the source; and an isolated source node (incident to no edge) yields
exactly the source with no edges under every nonnegative budget. -/
theorem C3_budget_zero :
    (∀ (g : Graph) (n : Nat), (∀ e ∈ g.edges, 0 < e.2.2) →
        (∀ e ∈ g.edges, ¬(e.1 = n ∧ e.2.1 = n)) → egoSub g n 0 = ([n], [])) ∧
      (∀ (g : Graph) (n : Nat) (r : ℚ), 0 ≤ r →
        (∀ e ∈ g.edges, e.1 ≠ n ∧ e.2.1 ≠ n) → egoSub g n r = ([n], [])) := by
  constructor
  · intro g n hpos hloop
    have hnodes : egoNodes g n 0 = [n] := by
      apply egoNodes_eq_singleton
      intro v hv
      rw [withinBudget_iff] at hv
      obtain ⟨d, hd, hle⟩ := hv
      have hd0 : d = 0 := by
        have h0 : (d : ℚ) ≤ ((0 : ℕ) : ℚ) := by simpa using hle
        have := Nat.cast_le.mp h0
        omega
      subst hd0
      obtain ⟨w, _, hwlast, hwcost⟩ := dijkstraDist_some hd
      cases w with
      | nil => simpa using hwlast.symm
      | cons y rest => exact absurd (walkCost_pos hpos hwcost) (by omega)
    have hedges : egoEdges g n 0 = [] := egoEdges_eq_nil hnodes hloop
    simp [egoSub, hnodes, hedges]
  · intro g n r _ hiso
    have hnodes : egoNodes g n r = [n] := by
      apply egoNodes_eq_singleton
      intro v hv
      rw [withinBudget_iff] at hv
      obtain ⟨d, hd, _⟩ := hv
      obtain ⟨w, _, hwlast, hwcost⟩ := dijkstraDist_some hd
      cases w with
      | nil => simpa using hwlast.symm
      | cons y rest =>
        obtain ⟨a, harc⟩ := walkCost_first_arc hwcost
        rw [mem_arcs] at harc
        rcases harc with harc | harc
        · exact absurd rfl (hiso (n, y, a) harc).1
        · exact absurd rfl (hiso (y, n, a) harc).2
    have hedges : egoEdges g n r = [] := by
      apply egoEdges_eq_nil hnodes
      intro e he hc
      exact (hiso e he).1 hc.1
    simp [egoSub, hnodes, hedges]

theorem C3_budget_zero_witness :
    egoSub chainG 2 0 = ([2], []) ∧ egoSub isoG 5 1000 = ([5], []) :=
  ⟨C3_budget_zero.1 chainG 2 (by decide) (by decide),
   C3_budget_zero.2 isoG 5 1000 (by norm_num) (by decide)⟩

/-- C6: the specification claims a negative distance budget fails with
`InvalidBudgetError`.  The code performs no budget validation: the
embedded `nx.ego_graph` at radius -1 returns a normal (ok) result, the
source-only subgraph, exactly as for budget 0. -/
theorem C6_negative_budget_cx : ego_graph chainG 0 (-1) = .ok ([0], []) := by decide

/-- C6 (amended): a negative budget is not rejected: for every graph and
every source node present in it, the query returns normally with the
source as the only node and only the self-loops at the source as edges
(no `InvalidBudgetError` exists anywhere in the code). -/
theorem C6_negative_budget (g : Graph) (n : Nat) (r : ℚ) (hr : r < 0)
    (hn : n ∈ nodeIds g) :
    ego_graph g n r =
      .ok ([n], g.edges.filter (fun e => e.1 == n && e.2.1 == n)) := by
  unfold ego_graph
  rw [if_pos hn]
  have hnodes : egoNodes g n r = [n] := by
    apply egoNodes_eq_singleton
    intro v hv
    rw [withinBudget_iff] at hv
    obtain ⟨d, _, hle⟩ := hv
    have : (0 : ℚ) ≤ (d : ℚ) := by positivity
    linarith
  have hedges : egoEdges g n r = g.edges.filter (fun e => e.1 == n && e.2.1 == n) := by
    unfold egoEdges
    rw [hnodes]
    apply List.filter_congr
    intro e _
    rw [Bool.eq_iff_iff]
    simp [List.contains_cons]
  simp [egoSub, hnodes, hedges]

theorem C6_negative_budget_witness : ego_graph isoG 5 (-2) = .ok ([5], []) :=
  (C6_negative_budget isoG 5 (-2) (by norm_num) (by decide)).trans (by decide)

theorem dictInsert_keys {V : Type} (m : List (Nat × V)) (k : Nat) (v : V) :
    (dictInsert m k v).map Prod.fst =
      if k ∈ m.map Prod.fst then m.map Prod.fst else m.map Prod.fst ++ [k] := by
  unfold dictInsert
  have hmem : ((m.any fun kv => kv.1 == k) = true) ↔ k ∈ m.map Prod.fst := by
    simp [List.any_eq_true, List.mem_map]
  by_cases h : k ∈ m.map Prod.fst
  · rw [if_pos (hmem.2 h), if_pos h, List.map_map]
    apply List.map_congr_left
    intro kv _
    simp only [Function.comp_apply]
    by_cases hk : kv.1 = k
    · simp [hk]
    · simp [hk]
  · rw [if_neg (fun hc => h (hmem.1 hc)), if_neg h, List.map_append]
    rfl

theorem dictInsert_keys_nodup {V : Type} {m : List (Nat × V)} (k : Nat) (v : V)
    (h : (m.map Prod.fst).Nodup) : ((dictInsert m k v).map Prod.fst).Nodup := by
  rw [dictInsert_keys]
  split
  · exact h
  · next hk =>
    rw [List.nodup_append]
    refine ⟨h, List.nodup_singleton k, ?_⟩
    intro x hx hxk
    simp at hxk
    subst hxk
    exact hk hx

theorem dictInsert_keys_mem {V : Type} {m : List (Nat × V)} {k j : Nat} {v : V} :
    j ∈ (dictInsert m k v).map Prod.fst ↔ j ∈ m.map Prod.fst ∨ j = k := by
  rw [dictInsert_keys]
  split
  · next hk =>
    constructor
    · exact Or.inl
    · rintro (h | rfl)
      · exact h
      · exact hk
  · simp [List.mem_append]

theorem dictInsert_length {V : Type} (m : List (Nat × V)) (k : Nat) (v : V) :
    (dictInsert m k v).length ≤ m.length + 1 := by
  unfold dictInsert
  split
  · simp
  · simp

theorem dictInsert_values {V : Type} {P : Nat → V → Prop} {m : List (Nat × V)} {k : Nat}
    {v : V} (hm : ∀ kv ∈ m, P kv.1 kv.2) (hv : P k v) :
    ∀ kv ∈ dictInsert m k v, P kv.1 kv.2 := by
  intro kv hkv
  unfold dictInsert at hkv
  split at hkv
  · obtain ⟨kv', hkv', he⟩ := List.mem_map.1 hkv
    by_cases hk : (kv'.1 == k) = true
    · rw [if_pos hk] at he
      rw [← he]
      exact hv
    · rw [if_neg hk] at he
      rw [← he]
      exact hm kv' hkv'
  · rcases List.mem_append.1 hkv with h | h
    · exact hm kv h
    · have he : kv = (k, v) := by simpa using h
      rw [he]
      exact hv

theorem serviceFold_graph (g : Graph) :
    ∀ (ns : List Nat) (acc : List (Nat × Subgraph)),
      (ns.foldl NetworkAnalysis.serviceAreaStep (g, acc)).1 = g := by
  intro ns
  induction ns with
  | nil => intro acc; rfl
  | cons n t ih =>
    intro acc
    rw [List.foldl_cons]
    exact ih _

theorem serviceFold_values (g : Graph) :
    ∀ (ns : List Nat) (acc : List (Nat × Subgraph)),
      (∀ kv ∈ acc, kv.2 = egoSub g kv.1 NetworkAnalysis.networkRadius) →
      ∀ kv ∈ (ns.foldl NetworkAnalysis.serviceAreaStep (g, acc)).2,
        kv.2 = egoSub g kv.1 NetworkAnalysis.networkRadius := by
  intro ns
  induction ns with
  | nil => intro acc hacc; exact hacc
  | cons n t ih =>
    intro acc hacc
    rw [List.foldl_cons]
    have hstep : NetworkAnalysis.serviceAreaStep (g, acc) n =
        (g, dictInsert acc n (egoSub g n NetworkAnalysis.networkRadius)) := rfl
    rw [hstep]
    refine ih _ ?_
    exact @dictInsert_values Subgraph
      (fun a b => b = egoSub g a NetworkAnalysis.networkRadius) acc n
      (egoSub g n NetworkAnalysis.networkRadius) hacc rfl

theorem serviceFold_keys (g : Graph) :
    ∀ (ns : List Nat) (acc : List (Nat × Subgraph)) (j : Nat),
      j ∈ (ns.foldl NetworkAnalysis.serviceAreaStep (g, acc)).2.map Prod.fst ↔
        j ∈ acc.map Prod.fst ∨ j ∈ ns := by
  intro ns
  induction ns with
  | nil =>
    intro acc j
    simp
  | cons n t ih =>
    intro acc j
    rw [List.foldl_cons]
    have hstep : NetworkAnalysis.serviceAreaStep (g, acc) n =
        (g, dictInsert acc n (egoSub g n NetworkAnalysis.networkRadius)) := rfl
    rw [hstep, ih, dictInsert_keys_mem, List.mem_cons]
    tauto

theorem serviceFold_nodup (g : Graph) :
    ∀ (ns : List Nat) (acc : List (Nat × Subgraph)),
      (acc.map Prod.fst).Nodup →
      ((ns.foldl NetworkAnalysis.serviceAreaStep (g, acc)).2.map Prod.fst).Nodup := by
  intro ns
  induction ns with
  | nil => intro acc hacc; exact hacc
  | cons n t ih =>
    intro acc hacc
    rw [List.foldl_cons]
    exact ih _ (dictInsert_keys_nodup _ _ hacc)

theorem serviceFold_length (g : Graph) :
    ∀ (ns : List Nat) (acc : List (Nat × Subgraph)),
      (ns.foldl NetworkAnalysis.serviceAreaStep (g, acc)).2.length ≤ acc.length + ns.length := by
  intro ns
  induction ns with
  | nil => intro acc; simp
  | cons n t ih =>
    intro acc
    rw [List.foldl_cons]
    refine le_trans (ih _) ?_
    have := dictInsert_length acc n (egoSub g n NetworkAnalysis.networkRadius)
    simp only [List.length_cons]
    omega

theorem mapE_head_error {α β : Type} {f : α → Except String β} {a : α} {as : List α}
    {e : String} (h : f a = .error e) : mapE f (a :: as) = .error e := by
  unfold mapE
  rw [h]
  rfl

theorem mapE_length {α β : Type} {f : α → Except String β} :
    ∀ {l : List α} {bs : List β}, mapE f l = .ok bs → bs.length = l.length := by
  intro l
  induction l with
  | nil =>
    intro bs h
    unfold mapE at h
    cases h
    rfl
  | cons a as ih =>
    intro bs h
    unfold mapE at h
    cases hfa : f a with
    | error e => rw [hfa] at h; cases h
    | ok b =>
      rw [hfa] at h
      cases hrest : mapE f as with
      | error e => rw [hrest] at h; cases h
      | ok bs' =>
        rw [hrest] at h
        cases h
        simp [ih hrest]

theorem calc_spec {g : Graph} {pois : List (ℤ × ℤ)} {g' : Graph}
    {areas : List (Nat × Subgraph)}
    (h : NetworkAnalysis.calculate_accessibility g pois = .ok (g', areas)) :
    ∃ ns, mapE (fun poi => nearest_nodes g poi.2 poi.1) pois = .ok ns ∧
      (g', areas) = ns.foldl NetworkAnalysis.serviceAreaStep (g, []) := by
  unfold NetworkAnalysis.calculate_accessibility at h
  cases hm : mapE (fun poi => nearest_nodes g poi.2 poi.1) pois with
  | error e =>
    rw [hm] at h
    cases h
  | ok ns =>
    rw [hm] at h
    have h' : Except.ok (ns.foldl NetworkAnalysis.serviceAreaStep (g, [])) =
        (Except.ok (g', areas) : Except String (Graph × List (Nat × Subgraph))) := h
    exact ⟨ns, rfl, (Except.ok.inj h').symm⟩

theorem foldl_nearest (x y : ℤ) :
    ∀ (ps : List (Nat × ℤ × ℤ)) (p : Nat × ℤ × ℤ),
      ps.foldl (fun best q => if sqDist q x y < sqDist best x y then q else best) p ∈ p :: ps ∧
        ∀ q ∈ p :: ps,
          sqDist (ps.foldl (fun best q => if sqDist q x y < sqDist best x y then q else best) p)
              x y ≤ sqDist q x y := by
  intro ps
  induction ps with
  | nil =>
    intro p
    refine ⟨List.mem_cons_self p [], ?_⟩
    intro q hq
    rcases List.mem_cons.1 hq with rfl | hq
    · exact le_refl _
    · cases hq
  | cons r t ih =>
    intro p
    rw [List.foldl_cons]
    obtain ⟨hmem, hmin⟩ := ih (if sqDist r x y < sqDist p x y then r else p)
    constructor
    · rcases List.mem_cons.1 hmem with heq | ht
      · rw [heq]
        split
        · exact List.mem_cons_of_mem p (List.mem_cons_self r t)
        · exact List.mem_cons_self p (r :: t)
      · exact List.mem_cons_of_mem p (List.mem_cons_of_mem r ht)
    · intro q hq
      rcases List.mem_cons.1 hq with rfl | hq
      · refine le_trans (hmin _ (List.mem_cons_self _ t)) ?_
        split
        · next h => exact le_of_lt h
        · exact le_refl _
      rcases List.mem_cons.1 hq with rfl | hq
      · refine le_trans (hmin _ (List.mem_cons_self _ t)) ?_
        split
        · exact le_refl _
        · next h => exact le_of_not_lt h
      · exact hmin q (List.mem_cons_of_mem _ hq)

theorem nearest_nodes_eq {g : Graph} {p : Nat × ℤ × ℤ} {ps : List (Nat × ℤ × ℤ)}
    (hg : g.nodes = p :: ps) (x y : ℤ) :
    nearest_nodes g x y =
      .ok (ps.foldl (fun best q => if sqDist q x y < sqDist best x y then q else best) p).1 := by
  unfold nearest_nodes
  rw [hg]

/-- C2: the specification claims nearest-node ties are broken by lowest
node id.  The embedded k-d-tree lookup keeps the first node in the node
array on a tie: on `tieG`, whose nodes 7 and 3 share the same
coordinates, the query returns node 7 although node 3 has the lower id
and exactly the same distance. -/
theorem C2_tie_lowest_id_cx :
    nearest_nodes tieG 0 0 = .ok 7 ∧ (3, 0, 0) ∈ tieG.nodes ∧
      sqDist (7, 0, 0) 0 0 = sqDist (3, 0, 0) 0 0 ∧ (3 : Nat) < 7 := by decide

/-- C2 (amended): on every non-empty node set, the lookup returns the id
of a node whose planar squared Euclidean distance to the query point is
at most that of every node; the choice among equidistant nodes follows
the node-array order, not the lowest id. -/
theorem C2_nearest_min (g : Graph) (x y : ℤ) (p : Nat × ℤ × ℤ)
    (ps : List (Nat × ℤ × ℤ)) (hg : g.nodes = p :: ps) :
    ∃ q ∈ g.nodes, nearest_nodes g x y = .ok q.1 ∧
      ∀ v ∈ g.nodes, sqDist q x y ≤ sqDist v x y := by
  obtain ⟨hmem, hmin⟩ := foldl_nearest x y ps p
  refine ⟨_, ?_, nearest_nodes_eq hg x y, ?_⟩
  · rw [hg]
    exact hmem
  · intro v hv
    rw [hg] at hv
    exact hmin v hv

theorem C2_nearest_min_witness :
    ∃ q ∈ chainG.nodes, nearest_nodes chainG 120 10 = .ok q.1 ∧
      ∀ v ∈ chainG.nodes, sqDist q 120 10 ≤ sqDist v 120 10 :=
  C2_nearest_min chainG 120 10 (0, 0, 0) [(1, 100, 0), (2, 200, 0), (3, 300, 0)] rfl

/-- C7: the specification claims a single POI's failure must not abort
the rest of the batch and that per-POI failures are recorded alongside
successes.  The code has no exception handling: the embedded batch loop
aborts at the first failing POI and the output carries no per-POI
failure records — on the empty graph with two POIs the whole call
returns one bare error. -/
theorem C7_batch_abort_cx :
    NetworkAnalysis.calculate_accessibility emptyG [(0, 0), (1, 1)] =
      .error "EmptyGraph" := by decide

/-- C7 (amended): a failing POI aborts the whole batch: whenever the
graph has no nodes and the POI list is non-empty, the first POI's
nearest-node failure makes the entire call return a single error, with
no partial per-POI results recorded. -/
theorem C7_batch_abort (g : Graph) (pois : List (ℤ × ℤ)) (p : ℤ × ℤ)
    (ps : List (ℤ × ℤ)) (hg : g.nodes = []) (hp : pois = p :: ps) :
    NetworkAnalysis.calculate_accessibility g pois = .error "EmptyGraph" := by
  subst hp
  unfold NetworkAnalysis.calculate_accessibility
  have hne : nearest_nodes g p.2 p.1 = .error "EmptyGraph" := by
    unfold nearest_nodes
    rw [hg]
  have hmap := @mapE_head_error (ℤ × ℤ) Nat (fun poi => nearest_nodes g poi.2 poi.1) p ps
    "EmptyGraph" hne
  rw [hmap]
  rfl

theorem C7_batch_abort_witness :
    NetworkAnalysis.calculate_accessibility emptyG [(2, 3)] = .error "EmptyGraph" :=
  C7_batch_abort emptyG [(2, 3)] (2, 3) [] rfl rfl

/-- C8: no per-POI service-area query writes the shared graph: every
loop step returns the graph component unchanged, the batch returns the
graph it was given, and every recorded service area equals the pure ego
query of the original graph at its own node with the fixed budget, so
each result depends only on the immutable graph and its own input. -/
theorem C8_graph_immutable :
    (∀ (g : Graph) (m : List (Nat × Subgraph)) (node : Nat),
        (NetworkAnalysis.serviceAreaStep (g, m) node).1 = g) ∧
      ∀ (g : Graph) (pois : List (ℤ × ℤ)) (g' : Graph) (areas : List (Nat × Subgraph)),
        NetworkAnalysis.calculate_accessibility g pois = .ok (g', areas) →
          g' = g ∧ ∀ kv ∈ areas, kv.2 = egoSub g kv.1 NetworkAnalysis.networkRadius := by
  constructor
  · intro g m node
    rfl
  · intro g pois g' areas h
    obtain ⟨ns, _, heq⟩ := calc_spec h
    have hg : g' = g := by
      have h1 := congrArg Prod.fst heq
      rw [serviceFold_graph] at h1
      exact h1
    refine ⟨hg, ?_⟩
    have harea : areas = (ns.foldl NetworkAnalysis.serviceAreaStep (g, [])).2 :=
      congrArg Prod.snd heq
    rw [harea]
    refine serviceFold_values g ns [] ?_
    intro kv hkv
    cases hkv

theorem C8_graph_immutable_witness :
    oneG = oneG ∧
      ∀ kv ∈ ([(0, egoSub oneG 0 NetworkAnalysis.networkRadius)] : List (Nat × Subgraph)),
        kv.2 = egoSub oneG kv.1 NetworkAnalysis.networkRadius :=
  C8_graph_immutable.2 oneG [(0, 0)] oneG
    [(0, egoSub oneG 0 NetworkAnalysis.networkRadius)] (by decide)

/-- C9: the batch result is a dictionary keyed by each POI's nearest
node: its keys are exactly the nearest-node images (without duplicates),
so POIs sharing a nearest node collapse into one entry, the number of
entries never exceeds the number of POIs, and on a one-node graph two
distinct POIs produce a single entry. -/
theorem C9_key_collapse :
    (∀ (g : Graph) (pois : List (ℤ × ℤ)) (ns : List Nat) (g' : Graph)
        (areas : List (Nat × Subgraph)),
        mapE (fun poi => nearest_nodes g poi.2 poi.1) pois = .ok ns →
        NetworkAnalysis.calculate_accessibility g pois = .ok (g', areas) →
          (areas.map Prod.fst).Nodup ∧ (∀ j, j ∈ areas.map Prod.fst ↔ j ∈ ns) ∧
            areas.length ≤ pois.length) ∧
      NetworkAnalysis.calculate_accessibility oneG [(0, 0), (5, 5)] =
        .ok (oneG, [(0, egoSub oneG 0 NetworkAnalysis.networkRadius)]) := by
  constructor
  · intro g pois ns g' areas hns h
    obtain ⟨ns', hns', heq⟩ := calc_spec h
    have hsame : ns = ns' := by
      rw [hns] at hns'
      exact Except.ok.inj hns'
    rw [← hsame] at heq
    have harea : areas = (ns.foldl NetworkAnalysis.serviceAreaStep (g, [])).2 :=
      congrArg Prod.snd heq
    refine ⟨?_, ?_, ?_⟩
    · rw [harea]
      exact serviceFold_nodup g ns [] (by simp)
    · intro j
      rw [harea, serviceFold_keys]
      simp
    · rw [harea]
      have h1 := serviceFold_length g ns []
      have h2 := mapE_length hns
      simp at h1
      omega
  · decide

theorem C9_key_collapse_witness :
    (([(0, egoSub oneG 0 NetworkAnalysis.networkRadius)] : List (Nat × Subgraph)).map
        Prod.fst).Nodup ∧
      (∀ j, j ∈ ([(0, egoSub oneG 0 NetworkAnalysis.networkRadius)] :
          List (Nat × Subgraph)).map Prod.fst ↔ j ∈ [0, 0]) ∧
      ([(0, egoSub oneG 0 NetworkAnalysis.networkRadius)] :
          List (Nat × Subgraph)).length ≤ ([(0, 0), (5, 5)] : List (ℤ × ℤ)).length :=
  C9_key_collapse.1 oneG [(0, 0), (5, 5)] [0, 0] oneG
    [(0, egoSub oneG 0 NetworkAnalysis.networkRadius)] (by decide) (by decide)

/-- C10: neither accessibility operation takes the distance budget as a
parameter: `accessibility_analysis` always queries with the derived
constant `walking_speed * 0.25 * 1000 = 1250` meters and
`network_analysis` always queries with the hard-coded 1200 meters, two
different budgets for the same kind of query. -/
theorem C10_fixed_budgets :
    AccessibilityAnalysis.access_radius = 1250 ∧ NetworkAnalysis.networkRadius = 1200 ∧
      AccessibilityAnalysis.access_radius ≠ NetworkAnalysis.networkRadius ∧
      (∀ (g : Graph) (c : Nat),
        nearest_nodes g AccessibilityAnalysis.center_point.1
            AccessibilityAnalysis.center_point.2 = .ok c →
          AccessibilityAnalysis.calculate_accessibility g =
            .ok ⟨none, (egoSub g c 1250).1.length, (egoSub g c 1250).2.length⟩) ∧
      ∀ (g : Graph) (pois : List (ℤ × ℤ)) (g' : Graph) (areas : List (Nat × Subgraph)),
        NetworkAnalysis.calculate_accessibility g pois = .ok (g', areas) →
          ∀ kv ∈ areas, kv.2 = egoSub g kv.1 1200 := by
  have hra : AccessibilityAnalysis.access_radius = 1250 := by
    norm_num [AccessibilityAnalysis.access_radius, AccessibilityAnalysis.max_distance,
      AccessibilityAnalysis.walking_speed]
  refine ⟨hra, rfl, by rw [hra]; norm_num [NetworkAnalysis.networkRadius], ?_, ?_⟩
  · intro g c h
    unfold AccessibilityAnalysis.calculate_accessibility
    rw [h]
    have hsub : egoSub g c AccessibilityAnalysis.access_radius = egoSub g c 1250 := by
      rw [hra]
    show (Except.ok (AccessibilityAnalysis.AccessResult.mk none
          (egoSub g c AccessibilityAnalysis.access_radius).1.length
          (egoSub g c AccessibilityAnalysis.access_radius).2.length) :
        Except String AccessibilityAnalysis.AccessResult) =
      Except.ok (AccessibilityAnalysis.AccessResult.mk none
        (egoSub g c 1250).1.length (egoSub g c 1250).2.length)
    rw [hsub]
  · intro g pois g' areas h
    obtain ⟨ns, _, heq⟩ := calc_spec h
    have harea : areas = (ns.foldl NetworkAnalysis.serviceAreaStep (g, [])).2 :=
      congrArg Prod.snd heq
    rw [harea]
    have hvals := serviceFold_values g ns [] (by intro kv hkv; cases hkv)
    intro kv hkv
    exact hvals kv hkv

theorem C10_fixed_budgets_witness :
    AccessibilityAnalysis.calculate_accessibility oneG =
      .ok ⟨none, (egoSub oneG 0 1250).1.length, (egoSub oneG 0 1250).2.length⟩ :=
  C10_fixed_budgets.2.2.2.1 oneG 0 (by decide)
